import Mathlib

/-!
Verification of the scharf reference scanning and remediation engine.

The definitions below are shallow embeddings of the Go source:
strings are modelled as Lean `String` / `List Char` (the scanned inputs are
byte-oriented; on the ASCII content handled here byte offsets and character
offsets coincide), Go maps are modelled as association lists with
first-match lookup and a zero-value default, fallible operations return
`Except`, and the file system / network side effects are threaded
explicitly through a `World` value.
-/

/-! ## Character constants used by the embedded code -/

def atChar : Char := '@'

def nlChar : Char := '\n'

def slashChar : Char := '/'

def dotChar : Char := '.'

def vChar : Char := 'v'

/-! ## Go string primitives

`goSplitChar` embeds `strings.Split` with a one-character separator:
every occurrence of the separator splits, empty fields are kept, and the
empty string yields one empty field. `goJoinNL` embeds
`strings.Join(lines, "\n")`. `goHasPrefix` embeds `strings.HasPrefix` and
`goToLower` embeds `strings.ToLower` (ASCII case mapping). -/

def goSplitChar (sep : Char) : List Char → List (List Char)
  | [] => [[]]
  | c :: rest =>
    if c == sep then [] :: goSplitChar sep rest
    else
      match goSplitChar sep rest with
      | [] => [[c]]
      | h :: t => (c :: h) :: t

def goJoinNL : List (List Char) → List Char
  | [] => []
  | [l] => l
  | l :: l₂ :: ls => l ++ nlChar :: goJoinNL (l₂ :: ls)

def goHasPrefix (s pre : String) : Bool :=
  pre.toList.isPrefixOf s.toList

def goToLower (s : String) : String :=
  String.mk (s.toList.map Char.toLower)

/-! ## network package: tag/branch listings and the SHA resolver -/

structure Commit where
  Sha : String
  URL : String
deriving DecidableEq, Repr

structure BranchOrTag where
  Name : String
  Commit : Commit
deriving DecidableEq, Repr

/-- Embeds `searchTag`: linear scan of the listing for the first entry whose
name equals the version; a hit with an empty commit id reports not found. -/
def searchTag : List BranchOrTag → String → Bool × String
  | [], _ => (false, "")
  | t :: rest, version =>
    if t.Name == version then
      if t.Commit.Sha == "" then (false, "") else (true, t.Commit.Sha)
    else searchTag rest version

/-- Embeds `splitRawAction`: `strings.Split` on `"@"`, then a two-field
result for exactly two fields, `(raw, "")` for one field, and the zero
value `("", "")` otherwise. -/
def splitRawAction (raw : String) : String × String :=
  match goSplitChar atChar raw.toList with
  | [a, b] => (String.mk a, String.mk b)
  | [a] => (String.mk a, "")
  | _ => ("", "")

def apiURL : String := "https://api.github.com/repos"

/-- Embeds `makeAPIEndpoint`: a version whose lowercase form starts with
`v` is looked up in the tags listing, anything else in the branches
listing. -/
def makeAPIEndpoint (action version : String) : String :=
  if goHasPrefix (goToLower version) "v" then
    apiURL ++ "/" ++ action ++ "/tags"
  else
    apiURL ++ "/" ++ action ++ "/branches"

/-- The base-name component `Resolve` computes from a raw reference. -/
def resolveBase (action : String) : String :=
  (splitRawAction action).1

/-- The version component `Resolve` computes, after defaulting an empty
version to `"main"`. -/
def resolveVersion (action : String) : String :=
  if (splitRawAction action).2 = "" then "main" else (splitRawAction action).2

/-- The listing URL `Resolve` fetches for a raw reference. -/
def resolveURL (action : String) : String :=
  makeAPIEndpoint (resolveBase action) (resolveVersion action)

/-! ## actcache package: the durable cache file -/

structure HashEntry where
  SHA : String
  UpdatedAt : String
deriving DecidableEq, Repr

/-- Observable states of the `cache.json` file inside the namespace
directory: absent, unreadable (a read error other than not-exists),
holding invalid JSON, or holding the JSON encoding of a map. -/
inductive CacheFileState where
  | absent
  | unreadable
  | malformed
  | stored (m : List (String × HashEntry))
deriving DecidableEq, Repr

inductive CacheError where
  | readErr
  | parseErr
  | writeErr
deriving DecidableEq, Repr

/-- Embeds `loadCache`: a missing file yields an empty map, any other read
failure or invalid JSON is an error. -/
def loadCache : CacheFileState → Except CacheError (List (String × HashEntry))
  | .absent => .ok []
  | .unreadable => .error .readErr
  | .malformed => .error .parseErr
  | .stored m => .ok m

/-- Go map assignment `m[k] = v` on the association-list model. -/
def insertEntry (m : List (String × HashEntry)) (k : String) (v : HashEntry) :
    List (String × HashEntry) :=
  (k, v) :: m.filter (fun p => !(p.1 == k))

/-- Embeds `saveCache`: on success the file now stores the snapshot,
a failed directory creation or write leaves the old file state. The
`saveOk` flag stands for whether those I/O calls succeed. -/
def saveCache (saveOk : Bool) (old : CacheFileState)
    (m : List (String × HashEntry)) : Except CacheError Unit × CacheFileState :=
  if saveOk then (.ok (), .stored m) else (.error .writeErr, old)

/-- Embeds `UpdateCacheEntry`: load, set `m[action]`, save the whole map. -/
def UpdateCacheEntry (saveOk : Bool) (now : String) (fs : CacheFileState)
    (action newSHA : String) : Except CacheError Unit × CacheFileState :=
  match loadCache fs with
  | .error e => (.error e, fs)
  | .ok m => saveCache saveOk fs (insertEntry m action ⟨newSHA, now⟩)

/-- Embeds `GetCache`. -/
def GetCache (fs : CacheFileState) : Except CacheError (List (String × HashEntry)) :=
  loadCache fs

/-- Go map read `m[k]` on the durable-cache map, with presence. -/
def entryLookup : List (String × HashEntry) → String → Option HashEntry
  | [], _ => none
  | p :: rest, k => if p.1 == k then some p.2 else entryLookup rest k

/-! ## The SHA resolver -/

/-- Go map lookup on the in-memory resolver cache: first matching key,
zero value `""` when the key is absent. -/
def mapLookup : List (String × String) → String → String
  | [], _ => ""
  | p :: rest, k => if p.1 == k then p.2 else mapLookup rest k

/-- Go map assignment on the in-memory resolver cache. -/
def mapInsert (c : List (String × String)) (k v : String) : List (String × String) :=
  (k, v) :: c.filter (fun p => !(p.1 == k))

structure SHAResolver where
  cache : List (String × String)
deriving DecidableEq, Repr

inductive NetError where
  | httpErr (msg : String)
  | jsonErr (msg : String)
deriving DecidableEq, Repr

inductive ResolveError where
  | http (msg : String)
  | json (msg : String)
  | notFound (version action : String)
deriving DecidableEq, Repr

/-- The explicit environment of the resolver: the network (response of
`http.Get` plus JSON decoding per URL), the durable cache file, whether
cache writes succeed, and the current timestamp. -/
structure World where
  net : String → Except NetError (List BranchOrTag)
  cacheFile : CacheFileState
  saveOk : Bool
  now : String

/-- Embeds `NewSHAResolver`: seed the in-memory cache from the durable
store when it loads without error and is non-empty. -/
def NewSHAResolver (w : World) : SHAResolver :=
  match GetCache w.cacheFile with
  | .ok c => if 0 < c.length then ⟨c.map (fun p => (p.1, p.2.SHA))⟩ else ⟨[]⟩
  | .error _ => ⟨[]⟩

/-- Result of one `Resolve` call: the returned value, the resolver state
afterwards, the world afterwards, and the list of URLs requested over the
network during the call. -/
structure ResolveOut where
  result : Except ResolveError String
  resolver : SHAResolver
  world : World
  reqs : List String

/-- Embeds `SHAResolver.Resolve`: in-memory cache lookup keyed by the raw
input (a non-empty hit returns immediately), then split and default the
version, fetch the listing, search it, and on success write the entry to
the in-memory map and (ignoring its error) to the durable store. -/
def Resolve (s : SHAResolver) (w : World) (action : String) : ResolveOut :=
  if mapLookup s.cache action ≠ "" then
    ⟨.ok (mapLookup s.cache action), s, w, []⟩
  else
    match w.net (resolveURL action) with
    | .error (.httpErr m) => ⟨.error (.http m), s, w, [resolveURL action]⟩
    | .error (.jsonErr m) => ⟨.error (.json m), s, w, [resolveURL action]⟩
    | .ok b =>
      match searchTag b (resolveVersion action) with
      | (false, _) =>
        ⟨.error (.notFound (resolveVersion action) (resolveBase action)), s, w,
          [resolveURL action]⟩
      | (true, sha) =>
        ⟨.ok sha, ⟨mapInsert s.cache action sha⟩,
          ⟨w.net, (UpdateCacheEntry w.saveOk w.now w.cacheFile action sha).2,
            w.saveOk, w.now⟩, [resolveURL action]⟩

/-! ## scanner package: findings and the remediation applier -/

/-- Embeds `Finding` (scanner/format.go): one issue in a workflow file. -/
structure Finding where
  Line : Int
  Column : Int
  Description : String
  FixSHA : String
  FixMsg : String
  Action : String
  Version : String
  Original : String
deriving DecidableEq, Repr

def SHA256NotAvailable : String := "N/A"

/-- The comparison closure `ApplyFixesInFile` passes to `sort.Slice`:
line ascending, then column ascending. -/
def findingLess (a b : Finding) : Bool :=
  if a.Line ≠ b.Line then decide (a.Line < b.Line) else decide (a.Column < b.Column)

/-- The non-strict order induced by `findingLess`: `a` may come before `b`
in a slice that `sort.Slice` has sorted. -/
def rleFinding (a b : Finding) : Prop :=
  findingLess b a = false

instance : DecidableRel rleFinding := fun a b =>
  inferInstanceAs (Decidable (findingLess b a = false))

/-- The contract Go documents for `sort.Slice` with the `findingLess`
closure: the output is a permutation of the input and contains no
inversion under `findingLess`. Stability is deliberately NOT part of the
contract (`sort.Slice`: "The sort is not guaranteed to be stable"). -/
def IsGoSortSlice (f : List Finding → List Finding) : Prop :=
  ∀ l : List Finding, (f l).Perm l ∧ (f l).Pairwise rleFinding

/-- A sort implementation satisfying the `sort.Slice` contract. -/
def insSortFindings (l : List Finding) : List Finding :=
  List.insertionSort rleFinding l

/-- Another implementation satisfying the `sort.Slice` contract; it
reverses the relative order of findings that compare equal. -/
def badSortFindings (l : List Finding) : List Finding :=
  List.insertionSort rleFinding l.reverse

/-- The errors `ApplyFixesInFile` returns when the recorded
position does not match the file content. -/
inductive FixError where
  | invalidLine (line : Int)
  | colOutOfRange (col line : Int)
  | notFound (orig : String) (line col : Int)
deriving DecidableEq, Repr

instance instDecEqExcept {ε α : Type} [DecidableEq ε] [DecidableEq α] :
    DecidableEq (Except ε α) := fun a b =>
  match a, b with
  | .error e, .error f =>
    if h : e = f then .isTrue (h ▸ rfl)
    else .isFalse (fun hh => h (Except.error.inj hh))
  | .error _, .ok _ => .isFalse (fun hh => Except.noConfusion hh)
  | .ok _, .error _ => .isFalse (fun hh => Except.noConfusion hh)
  | .ok x, .ok y =>
    if h : x = y then .isTrue (h ▸ rfl)
    else .isFalse (fun hh => h (Except.ok.inj hh))

/-- Embeds `strings.Contains(s, sub)`: `sub` occurs somewhere in `s`. -/
def containsSub (old : List Char) : List Char → Bool
  | [] => old.isPrefixOf []
  | c :: rest => old.isPrefixOf (c :: rest) || containsSub old rest

/-- Embeds `strings.Replace(s, old, new, 1)`: replace the first (leftmost)
occurrence of `old` in `s` by `new`. -/
def replaceFirst (old new : List Char) (s : List Char) : List Char :=
  if old.isPrefixOf s then new ++ s.drop old.length
  else
    match s with
    | [] => []
    | c :: rest => c :: replaceFirst old new rest
termination_by s.length

/-- Embeds one iteration of the fix loop in `ApplyFixesInFile`.
`none` models a Go runtime panic (a negative slice index, reachable when
`Column < 1` on an in-range line); `some (.error e)` models an early
`return err`; `some (.ok lines)` is the updated line array. -/
def applyStep (lines : List (List Char)) (f : Finding) :
    Option (Except FixError (List (List Char))) :=
  if f.FixSHA == SHA256NotAvailable then some (.ok lines)
  else
    let idx := f.Line - 1
    if idx < 0 ∨ (lines.length : Int) ≤ idx then some (.error (.invalidLine f.Line))
    else
      let line := lines.getD idx.toNat []
      if (line.length : Int) < f.Column - 1 then
        some (.error (.colOutOfRange f.Column f.Line))
      else if f.Column - 1 < 0 then none
      else
        let cn := (f.Column - 1).toNat
        let suffixPart := line.drop cn
        if containsSub f.Original.toList suffixPart = false then
          some (.error (.notFound f.Original f.Line f.Column))
        else
          let repl := (f.Action ++ "@" ++ f.FixSHA ++ " # " ++ f.Version).toList
          let newSuffix := replaceFirst f.Original.toList repl suffixPart
          some (.ok (lines.set idx.toNat (line.take cn ++ newSuffix)))

/-- The fix loop of `ApplyFixesInFile` over an already sorted list of
findings. -/
def applyIssues : List Finding → List (List Char) →
    Option (Except FixError (List (List Char)))
  | [], lines => some (.ok lines)
  | f :: rest, lines =>
    match applyStep lines f with
    | none => none
    | some (.error e) => some (.error e)
    | some (.ok lines') => applyIssues rest lines'

/-- Outcome of `ApplyFixesInFile`: `result` is the value the function returns
(`none` models a panic), `written` is the content written back to the
file, when any write happened. -/
structure ApplyResult where
  result : Option (Except FixError Unit)
  written : Option (List Char)
deriving DecidableEq, Repr

/-- Embeds `ApplyFixesInFile`: read and split the content, reorder the
findings with `sort.Slice` (passed in as `sortImpl`, since Go specifies
its output only up to the `IsGoSortSlice` contract), run the fix loop,
and join and write back unless dry-run. An error leaves the file
unwritten. -/
def ApplyFixesInFile (sortImpl : List Finding → List Finding)
    (content : List Char) (issues : List Finding) (isDryRun : Bool) : ApplyResult :=
  let lines := goSplitChar nlChar content
  let sorted := sortImpl issues
  match applyIssues sorted lines with
  | none => ⟨none, none⟩
  | some (.error e) => ⟨some (.error e), none⟩
  | some (.ok lines') =>
    ⟨some (.ok ()), if isDryRun then none else some (goJoinNL lines')⟩

/-! ## The reference extractor

`findRegex` is the fixed pattern
`([\w-]+)\/([\w-]+)@(?:v\d+(?:\.\d+)*|\d+\.\d+(?:\.\d+)*|main|dev|master)`.
Its full-match language is embedded below; the regexp engine itself is an
external library, so `ScanContentWithPosition` is parameterized by a
search function `find` whose contract (`FindContract`) states exactly what
`Regexp.FindAllIndex` guarantees: every returned span delimits a substring
belonging to the language of the pattern. -/

def underscoreChar : Char := '_'

def dashChar : Char := '-'

/-- A character matched by the `[\w-]` class: `\w` is `[0-9A-Za-z_]`. -/
def isWordDash (c : Char) : Bool :=
  (c.isAlpha || c.isDigit) || c == underscoreChar || c == dashChar

/-- Acceptor for `\d+(\.\d+)*` (when started with `seen = false`): `seen`
records whether the current digit group is non-empty. -/
def ddAux : List Char → Bool → Bool
  | [], seen => seen
  | c :: rest, seen =>
    if c.isDigit then ddAux rest true
    else if c == dotChar then seen && ddAux rest false
    else false

/-- The version alternatives of `findRegex`: a `v`-prefixed dotted number,
a dotted number containing at least one dot, or a literal branch name. -/
def isVersionTok (l : List Char) : Bool :=
  (match l with
   | c :: rest => c == vChar && ddAux rest false
   | [] => false)
  || (ddAux l false && l.contains dotChar)
  || l == "main".toList || l == "dev".toList || l == "master".toList

/-- Membership in the full-match language of `findRegex`:
`owner/name@version` with non-empty `[\w-]+` owner and name segments. -/
def IsActionRef (l : List Char) : Prop :=
  ∃ ow nm ver : List Char,
    l = ow ++ slashChar :: (nm ++ atChar :: ver) ∧
    ow ≠ [] ∧ ow.all isWordDash = true ∧
    nm ≠ [] ∧ nm.all isWordDash = true ∧
    isVersionTok ver = true

/-- Embeds `Match` (one regex match plus its 1-based position). -/
structure Match where
  Text : List Char
  Line : Nat
  Col : Nat
deriving DecidableEq, Repr

/-- Embeds `ScanContentWithPosition`: split the content on newlines, run
the regex engine on each line, and record the text of each span with 1-based
line and column numbers. -/
def ScanContentWithPosition (find : List Char → List (Nat × Nat))
    (content : List Char) : List Match :=
  ((goSplitChar nlChar content).enum).flatMap (fun il =>
    (find il.2).map (fun se =>
      ⟨(il.2.drop se.1).take (se.2 - se.1), il.1 + 1, se.1 + 1⟩))

/-- The guarantee the `regexp` package gives for `findRegex.FindAllIndex`
on a single line: every returned index pair delimits a substring of the
line that matches the pattern. -/
def FindContract (find : List Char → List (Nat × Nat)) : Prop :=
  ∀ line : List Char, ∀ se ∈ find line,
    IsActionRef ((line.drop se.1).take (se.2 - se.1))

/-- Embeds `strings.SplitN(s, "@", 2)`: at most two fields; the second
field, when present, is everything after the first separator. -/
def goSplitN2 (sep : Char) : List Char → List (List Char)
  | [] => [[]]
  | c :: rest =>
    if c == sep then [[], rest]
    else
      match goSplitN2 sep rest with
      | [] => [[c]]
      | h :: t => (c :: h) :: t

/-! ## Helper lemmas about the resolver -/

theorem searchTag_true_ne (l : List BranchOrTag) (v : String) :
    ∀ s, searchTag l v = (true, s) → s ≠ "" := by
  induction l with
  | nil => intro s h; simp [searchTag] at h
  | cons t rest ih =>
    intro s h
    by_cases h₁ : (t.Name == v) = true
    · by_cases h₂ : (t.Commit.Sha == "") = true
      · rw [searchTag, if_pos h₁, if_pos h₂] at h
        exact absurd h (by simp)
      · rw [searchTag, if_pos h₁, if_neg h₂] at h
        cases h
        simpa using h₂
    · rw [searchTag, if_neg h₁] at h
      exact ih s h

theorem searchTag_find_empty (l : List BranchOrTag) (v : String) (t : BranchOrTag)
    (hf : l.find? (fun b => b.Name == v) = some t) (hs : t.Commit.Sha = "") :
    searchTag l v = (false, "") := by
  induction l with
  | nil => simp at hf
  | cons b rest ih =>
    rw [List.find?_cons] at hf
    by_cases hn : (b.Name == v) = true
    · rw [hn] at hf
      obtain rfl : b = t := by simpa using hf
      rw [searchTag, if_pos hn, if_pos (by simpa using hs)]
    · rw [Bool.not_eq_true] at hn
      rw [hn] at hf
      rw [searchTag, if_neg (by simp [hn])]
      exact ih hf

theorem mapLookup_mapInsert_self (c : List (String × String)) (k v : String) :
    mapLookup (mapInsert c k v) k = v := by
  simp [mapLookup, mapInsert, List.find?_cons]

theorem resolve_hit (s : SHAResolver) (w : World) (action : String)
    (h : mapLookup s.cache action ≠ "") :
    Resolve s w action = ⟨.ok (mapLookup s.cache action), s, w, []⟩ := by
  unfold Resolve
  rw [if_pos h]

theorem resolve_miss_found (s : SHAResolver) (w : World) (action : String)
    (b : List BranchOrTag) (sha : String)
    (hm : mapLookup s.cache action = "")
    (hnet : w.net (resolveURL action) = .ok b)
    (hst : searchTag b (resolveVersion action) = (true, sha)) :
    Resolve s w action =
      ⟨.ok sha, ⟨mapInsert s.cache action sha⟩,
        ⟨w.net, (UpdateCacheEntry w.saveOk w.now w.cacheFile action sha).2,
          w.saveOk, w.now⟩, [resolveURL action]⟩ := by
  unfold Resolve
  rw [if_neg (by simp [hm]), hnet]
  dsimp only
  rw [hst]

theorem resolve_miss_notfound (s : SHAResolver) (w : World) (action : String)
    (b : List BranchOrTag) (x : String)
    (hm : mapLookup s.cache action = "")
    (hnet : w.net (resolveURL action) = .ok b)
    (hst : searchTag b (resolveVersion action) = (false, x)) :
    Resolve s w action =
      ⟨.error (.notFound (resolveVersion action) (resolveBase action)), s, w,
        [resolveURL action]⟩ := by
  unfold Resolve
  rw [if_neg (by simp [hm]), hnet]
  dsimp only
  rw [hst]

theorem resolve_miss_http (s : SHAResolver) (w : World) (action msg : String)
    (hm : mapLookup s.cache action = "")
    (hnet : w.net (resolveURL action) = .error (.httpErr msg)) :
    Resolve s w action = ⟨.error (.http msg), s, w, [resolveURL action]⟩ := by
  unfold Resolve
  rw [if_neg (by simp [hm]), hnet]

theorem resolve_miss_json (s : SHAResolver) (w : World) (action msg : String)
    (hm : mapLookup s.cache action = "")
    (hnet : w.net (resolveURL action) = .error (.jsonErr msg)) :
    Resolve s w action = ⟨.error (.json msg), s, w, [resolveURL action]⟩ := by
  unfold Resolve
  rw [if_neg (by simp [hm]), hnet]

/-- Inversion: a successful `Resolve` leaves (or finds) a non-empty entry
for the raw input string in the in-memory cache of the output state. -/
theorem resolve_ok_inv (s : SHAResolver) (w : World) (action sha₀ : String)
    (h : (Resolve s w action).result = .ok sha₀) :
    mapLookup (Resolve s w action).resolver.cache action = sha₀ ∧ sha₀ ≠ "" := by
  by_cases hm : mapLookup s.cache action = ""
  · cases hnet : w.net (resolveURL action) with
    | error e =>
      cases e with
      | httpErr msg => rw [resolve_miss_http s w action msg hm hnet] at h; simp at h
      | jsonErr msg => rw [resolve_miss_json s w action msg hm hnet] at h; simp at h
    | ok b =>
      cases hst : searchTag b (resolveVersion action) with
      | mk found sha =>
        cases found with
        | false =>
          rw [resolve_miss_notfound s w action b sha hm hnet hst] at h
          simp at h
        | true =>
          rw [resolve_miss_found s w action b sha hm hnet hst] at h ⊢
          simp only [Except.ok.injEq] at h
          refine ⟨?_, ?_⟩
          · rw [← h]
            exact mapLookup_mapInsert_self _ _ _
          · rw [← h]
            exact searchTag_true_ne b (resolveVersion action) sha hst
  · rw [resolve_hit s w action hm] at h ⊢
    simp only [Except.ok.injEq] at h
    refine ⟨h, ?_⟩
    rw [← h]
    exact hm

theorem resolve_miss_reqs (s : SHAResolver) (w : World) (action : String)
    (hm : mapLookup s.cache action = "") :
    (Resolve s w action).reqs = [resolveURL action] := by
  cases hnet : w.net (resolveURL action) with
  | error e =>
    cases e with
    | httpErr msg => rw [resolve_miss_http s w action msg hm hnet]
    | jsonErr msg => rw [resolve_miss_json s w action msg hm hnet]
  | ok b =>
    cases hst : searchTag b (resolveVersion action) with
    | mk found sha =>
      cases found with
      | false => rw [resolve_miss_notfound s w action b sha hm hnet hst]
      | true => rw [resolve_miss_found s w action b sha hm hnet hst]

theorem entryLookup_map_sha (m : List (String × HashEntry)) (k : String)
    (en : HashEntry) (hl : entryLookup m k = some en) :
    mapLookup (m.map (fun q => (q.1, q.2.SHA))) k = en.SHA := by
  induction m with
  | nil => simp [entryLookup] at hl
  | cons q rest ih =>
    by_cases hq : (q.1 == k) = true
    · rw [entryLookup, if_pos hq] at hl
      obtain rfl : q.2 = en := by simpa using hl
      simp [mapLookup, hq]
    · rw [entryLookup, if_neg hq] at hl
      simp only [List.map_cons, mapLookup, hq, if_false]
      exact ih hl

/-! ## Witness fixtures: a concrete network and worlds -/

def listTags : List BranchOrTag :=
  [⟨"v1.0.0", ⟨"sha-1", "u1"⟩⟩, ⟨"v2.0.0", ⟨"", "u2"⟩⟩]

def listBranches : List BranchOrTag :=
  [⟨"main", ⟨"sha-main", "u3"⟩⟩]

def wNet : String → Except NetError (List BranchOrTag) := fun url =>
  if url = "https://api.github.com/repos/owner/repo/tags" then .ok listTags
  else if url = "https://api.github.com/repos/owner/repo/branches" then .ok listBranches
  else .error (.httpErr "down")

def wWorld : World := ⟨wNet, .absent, true, "2025-01-01T00:00:00Z"⟩

def wWorldNoSave : World := ⟨wNet, .absent, false, "2025-01-01T00:00:00Z"⟩

def wWorldStoredEmpty : World :=
  ⟨wNet, .stored [("owner/repo@v1.0.0", ⟨"", "t0"⟩)], true, "2025-01-01T00:00:00Z"⟩

/-! ## Claims about the resolver -/

/-- C1: if `Resolve r` succeeded on an instance, the resulting id is in the
in-memory cache under the original raw string `r` (before any version
defaulting), and a later `Resolve r` on that instance returns the same id
with no network request. -/
theorem resolve_second_call_cached (s : SHAResolver) (w : World) (action sha₀ : String)
    (h : (Resolve s w action).result = .ok sha₀) :
    mapLookup (Resolve s w action).resolver.cache action = sha₀ ∧
    (Resolve (Resolve s w action).resolver (Resolve s w action).world action).result =
      .ok sha₀ ∧
    (Resolve (Resolve s w action).resolver (Resolve s w action).world action).reqs = [] := by
  obtain ⟨hc, hne⟩ := resolve_ok_inv s w action sha₀ h
  have h₂ := resolve_hit (Resolve s w action).resolver (Resolve s w action).world action
    (by rw [hc]; exact hne)
  refine ⟨hc, ?_, ?_⟩
  · rw [h₂]
    show Except.ok (mapLookup (Resolve s w action).resolver.cache action) = .ok sha₀
    rw [hc]
  · rw [h₂]

/-- Witness for C1: a concrete successful resolution of
`owner/repo@v1.0.0`, resolved once and then again from the cache. -/
theorem resolve_second_call_cached_witness :
    (Resolve ⟨[]⟩ wWorld "owner/repo@v1.0.0").result = .ok "sha-1" ∧
    (mapLookup (Resolve ⟨[]⟩ wWorld "owner/repo@v1.0.0").resolver.cache
        "owner/repo@v1.0.0" = "sha-1" ∧
      (Resolve (Resolve ⟨[]⟩ wWorld "owner/repo@v1.0.0").resolver
          (Resolve ⟨[]⟩ wWorld "owner/repo@v1.0.0").world "owner/repo@v1.0.0").result =
        .ok "sha-1" ∧
      (Resolve (Resolve ⟨[]⟩ wWorld "owner/repo@v1.0.0").resolver
          (Resolve ⟨[]⟩ wWorld "owner/repo@v1.0.0").world "owner/repo@v1.0.0").reqs = []) :=
  ⟨by decide, resolve_second_call_cached ⟨[]⟩ wWorld "owner/repo@v1.0.0" "sha-1" (by decide)⟩

/-- C4: a failed `Resolve` (network error, decode error, or version not in
the listing) creates no cache entry: the in-memory cache is unchanged and
the durable cache file is untouched. -/
theorem resolve_error_no_cache (s : SHAResolver) (w : World) (action : String)
    (e : ResolveError) (h : (Resolve s w action).result = .error e) :
    (Resolve s w action).resolver = s ∧
    (Resolve s w action).world.cacheFile = w.cacheFile := by
  by_cases hm : mapLookup s.cache action = ""
  · cases hnet : w.net (resolveURL action) with
    | error ne =>
      cases ne with
      | httpErr msg =>
        rw [resolve_miss_http s w action msg hm hnet]
        exact ⟨rfl, rfl⟩
      | jsonErr msg =>
        rw [resolve_miss_json s w action msg hm hnet]
        exact ⟨rfl, rfl⟩
    | ok b =>
      cases hst : searchTag b (resolveVersion action) with
      | mk found sha =>
        cases found with
        | false =>
          rw [resolve_miss_notfound s w action b sha hm hnet hst]
          exact ⟨rfl, rfl⟩
        | true =>
          rw [resolve_miss_found s w action b sha hm hnet hst] at h
          simp at h
  · rw [resolve_hit s w action hm] at h
    simp at h

/-- Witness for C4: `owner/repo@nonexistent` is missing from the branches
listing, `Resolve` fails with the not-found error, and neither cache is
touched. -/
theorem resolve_error_no_cache_witness :
    (Resolve ⟨[]⟩ wWorld "owner/repo@nonexistent").result =
      .error (.notFound "nonexistent" "owner/repo") ∧
    ((Resolve ⟨[]⟩ wWorld "owner/repo@nonexistent").resolver = ⟨[]⟩ ∧
      (Resolve ⟨[]⟩ wWorld "owner/repo@nonexistent").world.cacheFile =
        wWorld.cacheFile) :=
  ⟨by decide,
    resolve_error_no_cache ⟨[]⟩ wWorld "owner/repo@nonexistent"
      (.notFound "nonexistent" "owner/repo") (by decide)⟩

/-- C5: when the first listing entry whose name equals the requested
version carries an empty commit id, `Resolve` reports not found instead of
returning the empty identifier. -/
theorem resolve_empty_sha_not_found (s : SHAResolver) (w : World) (action : String)
    (b : List BranchOrTag) (t : BranchOrTag)
    (hm : mapLookup s.cache action = "")
    (hnet : w.net (resolveURL action) = .ok b)
    (hf : b.find? (fun en => en.Name == resolveVersion action) = some t)
    (hs : t.Commit.Sha = "") :
    (Resolve s w action).result =
      .error (.notFound (resolveVersion action) (resolveBase action)) := by
  have hst := searchTag_find_empty b (resolveVersion action) t hf hs
  rw [resolve_miss_notfound s w action b "" hm hnet hst]

/-- Witness for C5: the tags listing maps `v2.0.0` to an empty commit id,
and resolving `owner/repo@v2.0.0` fails with not-found. -/
theorem resolve_empty_sha_not_found_witness :
    mapLookup (SHAResolver.mk []).cache "owner/repo@v2.0.0" = "" ∧
    wWorld.net (resolveURL "owner/repo@v2.0.0") = .ok listTags ∧
    listTags.find? (fun en => en.Name == resolveVersion "owner/repo@v2.0.0") =
      some ⟨"v2.0.0", ⟨"", "u2"⟩⟩ ∧
    (Resolve ⟨[]⟩ wWorld "owner/repo@v2.0.0").result =
      .error (.notFound "v2.0.0" "owner/repo") := by
  refine ⟨by decide, by decide, by decide, ?_⟩
  have h := resolve_empty_sha_not_found ⟨[]⟩ wWorld "owner/repo@v2.0.0" listTags
    ⟨"v2.0.0", ⟨"", "u2"⟩⟩ (by decide) (by decide) (by decide) (by decide)
  rw [h]
  decide

/-- C10: when the upstream lookup succeeds, `Resolve` returns the id and
updates the in-memory cache even when persisting to the durable store
fails; the write error is discarded. -/
theorem resolve_ok_despite_write_failure (s : SHAResolver) (w : World)
    (action : String) (b : List BranchOrTag) (sha : String) (e : CacheError)
    (hm : mapLookup s.cache action = "")
    (hnet : w.net (resolveURL action) = .ok b)
    (hst : searchTag b (resolveVersion action) = (true, sha))
    (hfail : (UpdateCacheEntry w.saveOk w.now w.cacheFile action sha).1 = .error e) :
    (Resolve s w action).result = .ok sha ∧
    mapLookup (Resolve s w action).resolver.cache action = sha := by
  rw [resolve_miss_found s w action b sha hm hnet hst]
  exact ⟨rfl, mapLookup_mapInsert_self _ _ _⟩

/-- Witness for C10: with a failing cache write (`saveOk = false`), the
durable update errors, yet `Resolve` succeeds and caches in memory. -/
theorem resolve_ok_despite_write_failure_witness :
    (UpdateCacheEntry wWorldNoSave.saveOk wWorldNoSave.now wWorldNoSave.cacheFile
        "owner/repo@v1.0.0" "sha-1").1 = .error .writeErr ∧
    ((Resolve ⟨[]⟩ wWorldNoSave "owner/repo@v1.0.0").result = .ok "sha-1" ∧
      mapLookup (Resolve ⟨[]⟩ wWorldNoSave "owner/repo@v1.0.0").resolver.cache
        "owner/repo@v1.0.0" = "sha-1") :=
  ⟨by decide,
    resolve_ok_despite_write_failure ⟨[]⟩ wWorldNoSave "owner/repo@v1.0.0" listTags
      "sha-1" .writeErr (by decide) (by decide) (by decide) (by decide)⟩

/-- C9: a durable-cache entry whose stored identifier is empty seeds an
empty in-memory value, which the cache short-circuit treats as a miss:
`Resolve` performs a fresh network request and never returns the empty
string on success. -/
theorem resolve_empty_durable_entry_is_miss (w : World) (action : String)
    (m : List (String × HashEntry)) (en : HashEntry)
    (hcf : w.cacheFile = .stored m)
    (hl : entryLookup m action = some en)
    (hsha : en.SHA = "") :
    (Resolve (NewSHAResolver w) w action).reqs = [resolveURL action] ∧
    ∀ x, (Resolve (NewSHAResolver w) w action).result = .ok x → x ≠ "" := by
  have hmne : m ≠ [] := by
    intro hnil
    rw [hnil] at hl
    simp [entryLookup] at hl
  have hres : NewSHAResolver w = ⟨m.map (fun q => (q.1, q.2.SHA))⟩ := by
    rw [NewSHAResolver, GetCache, hcf]
    show (if 0 < m.length then (⟨m.map (fun q => (q.1, q.2.SHA))⟩ : SHAResolver) else ⟨[]⟩) = _
    rw [if_pos (by cases m with | nil => exact absurd rfl hmne | cons a l => simp)]
  have hm : mapLookup (NewSHAResolver w).cache action = "" := by
    rw [hres]
    show mapLookup (m.map (fun q => (q.1, q.2.SHA))) action = ""
    rw [entryLookup_map_sha m action en hl, hsha]
  exact ⟨resolve_miss_reqs _ w action hm,
    fun x hx => (resolve_ok_inv _ w action x hx).2⟩

/-- Witness for C9: a stored entry mapping `owner/repo@v1.0.0` to the
empty identifier triggers a fresh network request to the tags URL. -/
theorem resolve_empty_durable_entry_is_miss_witness :
    wWorldStoredEmpty.cacheFile =
      .stored [("owner/repo@v1.0.0", ⟨"", "t0"⟩)] ∧
    entryLookup [("owner/repo@v1.0.0", ⟨"", "t0"⟩)] "owner/repo@v1.0.0" =
      some ⟨"", "t0"⟩ ∧
    (Resolve (NewSHAResolver wWorldStoredEmpty) wWorldStoredEmpty
        "owner/repo@v1.0.0").reqs =
      ["https://api.github.com/repos/owner/repo/tags"] := by
  refine ⟨by decide, by decide, ?_⟩
  have h := resolve_empty_durable_entry_is_miss wWorldStoredEmpty "owner/repo@v1.0.0"
    [("owner/repo@v1.0.0", ⟨"", "t0"⟩)] ⟨"", "t0"⟩ (by decide) (by decide) (by decide)
  rw [h.1]
  decide

/-- C7: `UpdateCacheEntry` followed by `loadCache` on the same namespace
yields an entry for the key whose SHA is the written id; loading an absent
store gives the empty map, so this also covers a fresh namespace. -/
theorem update_then_load (now k idv : String) (fs : CacheFileState)
    (m : List (String × HashEntry)) (h : loadCache fs = .ok m) :
    (UpdateCacheEntry true now fs k idv).1 = .ok () ∧
    (∃ m', loadCache (UpdateCacheEntry true now fs k idv).2 = .ok m' ∧
      entryLookup m' k = some ⟨idv, now⟩) ∧
    loadCache CacheFileState.absent = .ok [] := by
  unfold UpdateCacheEntry
  rw [h]
  refine ⟨by simp [saveCache], ⟨insertEntry m k ⟨idv, now⟩, ?_, ?_⟩, rfl⟩
  · simp [saveCache, loadCache]
  · simp [insertEntry, entryLookup]

/-- Witness for C7: upserting `a ↦ sha1` into an absent store and
reloading yields the entry `sha1`. -/
theorem update_then_load_witness :
    loadCache CacheFileState.absent = .ok [] ∧
    (UpdateCacheEntry true "t1" CacheFileState.absent "a" "sha1").1 = .ok () ∧
    ∃ m', loadCache (UpdateCacheEntry true "t1" CacheFileState.absent "a" "sha1").2 =
        .ok m' ∧ entryLookup m' "a" = some ⟨"sha1", "t1"⟩ :=
  ⟨by decide,
    (update_then_load "t1" "a" "sha1" CacheFileState.absent [] (by decide)).1,
    (update_then_load "t1" "a" "sha1" CacheFileState.absent [] (by decide)).2.1⟩

/-! ## Lemmas about `goSplitChar` and `splitRawAction` -/

theorem goSplitChar_no_sep (sep : Char) (l : List Char) (h : sep ∉ l) :
    goSplitChar sep l = [l] := by
  induction l with
  | nil => rfl
  | cons c rest ih =>
    have hc : (c == sep) = false := by
      simp only [beq_eq_false_iff_ne, ne_eq]
      intro hh
      exact h (hh ▸ List.mem_cons_self c rest)
    rw [goSplitChar, hc]
    rw [ih (fun hm => h (List.mem_cons_of_mem c hm))]
    simp

theorem goSplitChar_sep_append (sep : Char) (p q : List Char) (hp : sep ∉ p) :
    goSplitChar sep (p ++ sep :: q) = p :: goSplitChar sep q := by
  induction p with
  | nil => simp [goSplitChar]
  | cons c rest ih =>
    have hc : (c == sep) = false := by
      simp only [beq_eq_false_iff_ne, ne_eq]
      intro hh
      exact hp (hh ▸ List.mem_cons_self c rest)
    rw [List.cons_append, goSplitChar, hc]
    rw [ih (fun hm => hp (List.mem_cons_of_mem c hm))]
    simp

theorem goSplitChar_length (sep : Char) (l : List Char) :
    (goSplitChar sep l).length = l.count sep + 1 := by
  induction l with
  | nil => rfl
  | cons c rest ih =>
    by_cases hc : (c == sep) = true
    · have hce : c = sep := by simpa using hc
      rw [goSplitChar, hc]
      simp [List.count_cons, hce, ih]
    · rw [goSplitChar, Bool.not_eq_true] at *
      rw [hc]
      cases hsplit : goSplitChar sep rest with
      | nil => rw [hsplit] at ih; simp at ih
      | cons h t =>
        rw [hsplit] at ih
        have hne : c ≠ sep := by simpa using hc
        simp only [List.length_cons, List.count_cons] at *
        simp [hne, ih]

/-- C6 counterexample: on a reference containing two `@` characters,
`splitRawAction` does not split at the last `@` — it returns the zero
value `("", "")` because `strings.Split` yields three fields. -/
theorem splitRawAction_multi_at_not_last_split :
    splitRawAction "a@b@c" = ("", "") ∧ splitRawAction "a@b@c" ≠ ("a@b", "c") := by
  decide

/-- C6 (amended): `Resolve` splits the raw reference at the `@` only when
the string contains exactly one `@` (no `@`: the version is empty; two or
more `@`: base and version both collapse to `""`), and with no `@` the
version defaults to `"main"` and resolution is routed to the branches
listing of the raw string. -/
theorem splitRawAction_characterization (raw : String) (s : SHAResolver) (w : World) :
    (raw.toList.count atChar = 0 → splitRawAction raw = (raw, "")) ∧
    (∀ p q : List Char, raw.toList = p ++ atChar :: q → atChar ∉ p → atChar ∉ q →
      splitRawAction raw = (String.mk p, String.mk q)) ∧
    (2 ≤ raw.toList.count atChar → splitRawAction raw = ("", "")) ∧
    (raw.toList.count atChar = 0 → mapLookup s.cache raw = "" →
      (Resolve s w raw).reqs = [apiURL ++ "/" ++ raw ++ "/branches"]) := by
  have hzero : raw.toList.count atChar = 0 → splitRawAction raw = (raw, "") := by
    intro h0
    have hnotin : atChar ∉ raw.toList := List.count_eq_zero.mp h0
    rw [splitRawAction, goSplitChar_no_sep atChar raw.toList hnotin]
    rfl
  refine ⟨hzero, ?_, ?_, ?_⟩
  · intro p q hdec hp hq
    rw [splitRawAction, hdec, goSplitChar_sep_append atChar p q hp,
      goSplitChar_no_sep atChar q hq]
  · intro h2
    have hlen : (goSplitChar atChar raw.toList).length = raw.toList.count atChar + 1 :=
      goSplitChar_length atChar raw.toList
    rw [splitRawAction]
    cases hs : goSplitChar atChar raw.toList with
    | nil => rfl
    | cons a t =>
      cases t with
      | nil =>
        exfalso
        rw [hs] at hlen
        simp only [List.length_cons, List.length_nil] at hlen
        omega
      | cons b t₂ =>
        cases t₂ with
        | nil =>
          exfalso
          rw [hs] at hlen
          simp only [List.length_cons, List.length_nil] at hlen
          omega
        | cons c t₃ => rfl
  · intro h0 hm
    have hv : resolveVersion raw = "main" := by
      rw [resolveVersion, hzero h0]
      simp
    have hb : resolveBase raw = raw := by
      rw [resolveBase, hzero h0]
    have hurl : resolveURL raw = apiURL ++ "/" ++ raw ++ "/branches" := by
      rw [resolveURL, hv, hb, makeAPIEndpoint, if_neg (by decide)]
    rw [resolve_miss_reqs s w raw hm, hurl]

/-- Witness for C6 (amended) at a concrete version-less reference:
`owner/repo` keeps its base, gets version `main`, and is resolved against
its branches listing. -/
theorem splitRawAction_characterization_witness :
    splitRawAction "owner/repo" = ("owner/repo", "") ∧
    (Resolve ⟨[]⟩ wWorld "owner/repo").reqs =
      ["https://api.github.com/repos/owner/repo/branches"] := by
  have h := splitRawAction_characterization "owner/repo" ⟨[]⟩ wWorld
  refine ⟨h.1 (by decide), ?_⟩
  rw [h.2.2.2 (by decide) (by decide)]
  decide

/-! ## Lemmas about the `sort.Slice` comparator -/

theorem findingLess_iff (x y : Finding) :
    findingLess x y = true ↔
      x.Line < y.Line ∨ (x.Line = y.Line ∧ x.Column < y.Column) := by
  unfold findingLess
  by_cases h : x.Line = y.Line <;> simp [h]

theorem rleFinding_total (a b : Finding) : rleFinding a b ∨ rleFinding b a := by
  unfold rleFinding
  rw [← Bool.not_eq_true, ← Bool.not_eq_true, findingLess_iff, findingLess_iff]
  omega

theorem rleFinding_trans (a b c : Finding) :
    rleFinding a b → rleFinding b c → rleFinding a c := by
  unfold rleFinding
  rw [← Bool.not_eq_true, ← Bool.not_eq_true, ← Bool.not_eq_true,
    findingLess_iff, findingLess_iff, findingLess_iff]
  omega

instance : IsTotal Finding rleFinding := ⟨rleFinding_total⟩

instance : IsTrans Finding rleFinding := ⟨fun a b c => rleFinding_trans a b c⟩

theorem insSortFindings_conforms : IsGoSortSlice insSortFindings := fun l =>
  ⟨List.perm_insertionSort rleFinding l, List.sorted_insertionSort rleFinding l⟩

theorem badSortFindings_conforms : IsGoSortSlice badSortFindings := fun l =>
  ⟨(List.perm_insertionSort rleFinding l.reverse).trans (List.reverse_perm l),
    List.sorted_insertionSort rleFinding l.reverse⟩

/-- Two findings at the same position with different payloads. -/
def fA : Finding := ⟨1, 1, "d1", "sha-A", "m1", "a/a", "v1", "a/a@v1"⟩

def fB : Finding := ⟨1, 1, "d2", "sha-B", "m2", "b/b", "v1", "b/b@v1"⟩

/-- C3 counterexample: `badSortFindings` satisfies the full contract Go
gives for the `sort.Slice` call in `ApplyFixesInFile` (a permutation of
the findings with no inversion under `findingLess` — stability is
explicitly not guaranteed by `sort.Slice`), yet it swaps the two
equal-position findings `fA, fB`, so the claimed preservation of original
relative order for equal (line, column) does not follow from the code. -/
theorem sortSlice_not_stable :
    IsGoSortSlice badSortFindings ∧
    badSortFindings [fA, fB] = [fB, fA] ∧
    fA.Line = fB.Line ∧ fA.Column = fB.Column ∧ fA ≠ fB :=
  ⟨badSortFindings_conforms, by decide, rfl, rfl, by decide⟩

/-- C3 (amended): the finding list that `ApplyFixesInFile` passes to its
fix loop, namely `sortImpl issues` for any `sortImpl` meeting the
`sort.Slice` contract, is a permutation of the findings ordered by line
ascending then column ascending; findings with equal line and column may
appear in either order. -/
theorem applyFixes_sort_sorted_perm (sortImpl : List Finding → List Finding)
    (h : IsGoSortSlice sortImpl) (issues : List Finding) :
    (sortImpl issues).Perm issues ∧
    (sortImpl issues).Pairwise (fun a b =>
      a.Line < b.Line ∨ (a.Line = b.Line ∧ a.Column ≤ b.Column)) := by
  refine ⟨(h issues).1, List.Pairwise.imp ?_ (h issues).2⟩
  intro a b hr
  rw [rleFinding, ← Bool.not_eq_true, findingLess_iff] at hr
  omega

/-- Witness for C3 (amended), with the conforming insertion sort at a
concrete two-finding list. -/
theorem applyFixes_sort_sorted_perm_witness :
    (insSortFindings [fB, fA]).Perm [fB, fA] ∧
    (insSortFindings [fB, fA]).Pairwise (fun a b =>
      a.Line < b.Line ∨ (a.Line = b.Line ∧ a.Column ≤ b.Column)) :=
  applyFixes_sort_sorted_perm insSortFindings insSortFindings_conforms [fB, fA]

/-! ## Lemmas about the fix loop -/

theorem applyIssues_append (pre post : List Finding) (lines : List (List Char)) :
    applyIssues (pre ++ post) lines =
      match applyIssues pre lines with
      | none => none
      | some (.error e) => some (.error e)
      | some (.ok lines₂) => applyIssues post lines₂ := by
  induction pre generalizing lines with
  | nil => simp [applyIssues]
  | cons f rest ih =>
    simp only [List.cons_append, applyIssues]
    cases hst : applyStep lines f with
    | none => rfl
    | some r =>
      cases r with
      | error e => rfl
      | ok lines₂ => exact ih lines₂

/-- A finding that cannot be located at its recorded position makes the
loop body return an error (given an in-bounds line and a column of at
least 1, or any out-of-range line). -/
theorem applyStep_mismatch_error (lines : List (List Char)) (f : Finding)
    (hNA : f.FixSHA ≠ SHA256NotAvailable)
    (htrig : (f.Line - 1 < 0 ∨ (lines.length : Int) ≤ f.Line - 1) ∨
      (0 ≤ f.Column - 1 ∧
        (((lines.getD (f.Line - 1).toNat []).length : Int) < f.Column - 1 ∨
          containsSub f.Original.toList
            ((lines.getD (f.Line - 1).toNat []).drop (f.Column - 1).toNat) = false))) :
    ∃ e, applyStep lines f = some (.error e) := by
  rw [applyStep, if_neg (by simpa using hNA)]
  by_cases hlr : f.Line - 1 < 0 ∨ (lines.length : Int) ≤ f.Line - 1
  · exact ⟨.invalidLine f.Line, by rw [if_pos hlr]⟩
  · rw [if_neg hlr]
    rcases htrig with hline | ⟨hcol, hfail⟩
    · exact absurd hline hlr
    · by_cases hlen :
        (((lines.getD (f.Line - 1).toNat []).length : Int) < f.Column - 1)
      · exact ⟨.colOutOfRange f.Column f.Line, by rw [if_pos hlen]⟩
      · rw [if_neg hlen, if_neg (by omega)]
        have hcs : containsSub f.Original.toList
            ((lines.getD (f.Line - 1).toNat []).drop (f.Column - 1).toNat) = false := by
          rcases hfail with h | h
          · exact absurd h hlen
          · exact h
        exact ⟨.notFound f.Original f.Line f.Column, by rw [if_pos hcs]⟩

/-- C2 (amended): when the fix loop reaches a finding (with an available
fix) whose recorded position does not match the content — line out of
range, or a column of at least 1 whose suffix does not contain the
original text or lies beyond the line end — `ApplyFixesInFile` returns a
positional-mismatch error and writes nothing back; a recorded column
less than 1 on an in-range line is not covered: it panics (see the
counterexample). -/
theorem applyFixes_position_mismatch_aborts (sortImpl : List Finding → List Finding)
    (content : List Char) (issues : List Finding) (dryRun : Bool)
    (pre post : List Finding) (f : Finding) (lines' : List (List Char))
    (hs : sortImpl issues = pre ++ f :: post)
    (hpre : applyIssues pre (goSplitChar nlChar content) = some (.ok lines'))
    (hNA : f.FixSHA ≠ SHA256NotAvailable)
    (htrig : (f.Line - 1 < 0 ∨ (lines'.length : Int) ≤ f.Line - 1) ∨
      (0 ≤ f.Column - 1 ∧
        (((lines'.getD (f.Line - 1).toNat []).length : Int) < f.Column - 1 ∨
          containsSub f.Original.toList
            ((lines'.getD (f.Line - 1).toNat []).drop (f.Column - 1).toNat) = false))) :
    (∃ e, (ApplyFixesInFile sortImpl content issues dryRun).result = some (.error e)) ∧
    (ApplyFixesInFile sortImpl content issues dryRun).written = none := by
  obtain ⟨e, he⟩ := applyStep_mismatch_error lines' f hNA htrig
  have hloop : applyIssues (sortImpl issues) (goSplitChar nlChar content) =
      some (.error e) := by
    rw [hs, applyIssues_append, hpre]
    simp only [applyIssues, he]
  refine ⟨⟨e, ?_⟩, ?_⟩ <;>
    · simp only [ApplyFixesInFile, hloop]

/-- A finding with a recorded column of 0 and an available fix. -/
def fColZero : Finding := ⟨1, 0, "d", "x", "m", "a/a", "v1", "abc"⟩

/-- C2 counterexample: on an in-range line, a recorded column of 0 (out of
range for 1-based columns) drives `ApplyFixesInFile` into the negative
slice index `line[:-1]`, a Go runtime panic (modelled as `none`), instead
of the claimed positional-mismatch error return. -/
theorem applyFixes_column_zero_panics :
    ApplyFixesInFile insSortFindings "abc".toList [fColZero] false =
      ⟨none, none⟩ := by
  decide

/-- A finding whose recorded text is absent from the content. -/
def fStale : Finding := ⟨1, 1, "d", "sha-1", "m", "actions/checkout", "v4", "zzz"⟩

/-- Witness for C2 (amended): a finding whose original text `zzz` is not
in `abc` aborts with an error and nothing is written. -/
theorem applyFixes_position_mismatch_aborts_witness :
    (∃ e, (ApplyFixesInFile insSortFindings "abc".toList [fStale] false).result =
        some (.error e)) ∧
    (ApplyFixesInFile insSortFindings "abc".toList [fStale] false).written = none :=
  applyFixes_position_mismatch_aborts insSortFindings "abc".toList [fStale] false
    [] [] fStale ["abc".toList] (by decide) (by decide) (by decide) (by decide)

/-! ## Lemmas about the pattern language -/

theorem ddAux_chars (l : List Char) :
    ∀ b, ddAux l b = true → ∀ c ∈ l, c.isDigit = true ∨ c = dotChar := by
  induction l with
  | nil => intro b _ c hc; simp at hc
  | cons d rest ih =>
    intro b h c hc
    rw [ddAux] at h
    by_cases hd : d.isDigit = true
    · rw [if_pos hd] at h
      rcases List.mem_cons.mp hc with rfl | hmem
      · exact Or.inl hd
      · exact ih true h c hmem
    · rw [if_neg hd] at h
      by_cases hdot : (d == dotChar) = true
      · rw [if_pos hdot] at h
        rcases List.mem_cons.mp hc with rfl | hmem
        · exact Or.inr (by simpa using hdot)
        · exact ih false ((Bool.and_eq_true _ _).mp h).2 c hmem
      · rw [if_neg hdot] at h
        exact absurd h (by simp)

theorem isVersionTok_no_at (l : List Char) (h : isVersionTok l = true) :
    atChar ∉ l := by
  intro hmem
  unfold isVersionTok at h
  simp only [Bool.or_eq_true] at h
  rcases h with (((hv | hdd) | hmain) | hdev) | hmaster
  · cases l with
    | nil => simp at hv
    | cons c rest =>
      dsimp only at hv
      rw [Bool.and_eq_true] at hv
      rcases List.mem_cons.mp hmem with rfl | hmem₂
      · have hca : atChar = vChar := by simpa using hv.1
        exact absurd hca (by decide)
      · rcases ddAux_chars rest false hv.2 atChar hmem₂ with hd | hd
        · exact absurd hd (by decide)
        · exact absurd hd (by decide)
  · rw [Bool.and_eq_true] at hdd
    rcases ddAux_chars l false hdd.1 atChar hmem with hd | hd
    · exact absurd hd (by decide)
    · exact absurd hd (by decide)
  · have hl : l = "main".toList := by simpa using hmain
    rw [hl] at hmem
    exact absurd hmem (by decide)
  · have hl : l = "dev".toList := by simpa using hdev
    rw [hl] at hmem
    exact absurd hmem (by decide)
  · have hl : l = "master".toList := by simpa using hmaster
    rw [hl] at hmem
    exact absurd hmem (by decide)

theorem wordDash_no_at (l : List Char) (h : l.all isWordDash = true) :
    atChar ∉ l := by
  intro hmem
  have := List.all_eq_true.mp h atChar hmem
  exact absurd this (by decide)

theorem goSplitN2_at (p q : List Char) (hp : atChar ∉ p) :
    goSplitN2 atChar (p ++ atChar :: q) = [p, q] := by
  induction p with
  | nil => simp [goSplitN2]
  | cons c rest ih =>
    have hc : (c == atChar) = false := by
      simp only [beq_eq_false_iff_ne, ne_eq]
      intro hh
      exact hp (hh ▸ List.mem_cons_self c rest)
    rw [List.cons_append, goSplitN2, hc]
    rw [ih (fun hm => hp (List.mem_cons_of_mem c hm))]
    simp

theorem isActionRef_count_one (l : List Char) (h : IsActionRef l) :
    l.count atChar = 1 := by
  obtain ⟨ow, nm, ver, heq, -, howall, -, hnmall, hver⟩ := h
  rw [heq]
  rw [List.count_append, List.count_cons, List.count_append, List.count_cons]
  rw [List.count_eq_zero.mpr (wordDash_no_at ow howall),
    List.count_eq_zero.mpr (wordDash_no_at nm hnmall),
    List.count_eq_zero.mpr (isVersionTok_no_at ver hver)]
  decide

theorem isActionRef_splitN2 (l : List Char) (h : IsActionRef l) :
    ∃ p q : List Char, goSplitN2 atChar l = [p, q] ∧ p ≠ [] := by
  obtain ⟨ow, nm, ver, heq, hown, howall, -, hnmall, -⟩ := h
  refine ⟨ow ++ slashChar :: nm, ver, ?_, by simp⟩
  have hassoc : l = (ow ++ slashChar :: nm) ++ atChar :: ver := by
    rw [heq]
    simp
  rw [hassoc]
  refine goSplitN2_at (ow ++ slashChar :: nm) ver ?_
  intro hmem
  rcases List.mem_append.mp hmem with hmo | hms
  · exact wordDash_no_at ow howall hmo
  · rcases List.mem_cons.mp hms with heqs | hmn
    · exact absurd heqs (by decide)
    · exact wordDash_no_at nm hnmall hmn

/-- C8: every match produced by `ScanContentWithPosition` under the fixed
reference pattern contains exactly one `@` with a non-empty
`owner/name` segment before it, so the two-way split on `@` performed by
`AssembleWorkflow` always yields two fields and indexing `parts[1]` is
safe. -/
theorem scan_match_split_safe (find : List Char → List (Nat × Nat))
    (content : List Char) (hc : FindContract find) (m : Match)
    (hm : m ∈ ScanContentWithPosition find content) :
    m.Text.count atChar = 1 ∧
    ∃ p q : List Char, goSplitN2 atChar m.Text = [p, q] ∧ p ≠ [] := by
  obtain ⟨il, hil, hmm⟩ := List.mem_flatMap.mp hm
  obtain ⟨se, hse, rfl⟩ := List.mem_map.mp hmm
  have href : IsActionRef ((il.2.drop se.1).take (se.2 - se.1)) := hc il.2 se hse
  exact ⟨isActionRef_count_one _ href, isActionRef_splitN2 _ href⟩

/-- A concrete workflow line. -/
def demoLine : List Char := "uses: actions/checkout@v4".toList

/-- A concrete regex-engine result for `demoLine`: the single span of
`actions/checkout@v4`. -/
def demoFind : List Char → List (Nat × Nat) := fun l =>
  if l == demoLine then [(6, 25)] else []

theorem demoFind_contract : FindContract demoFind := by
  intro line se hse
  unfold demoFind at hse
  by_cases hl : (line == demoLine) = true
  · rw [if_pos hl] at hse
    obtain rfl : se = (6, 25) := by simpa using hse
    obtain rfl : line = demoLine := eq_of_beq hl
    refine ⟨"actions".toList, "checkout".toList, "v4".toList, ?_, ?_, ?_, ?_, ?_, ?_⟩
      <;> decide
  · rw [if_neg hl] at hse
    simp at hse

/-- Witness for C8: scanning the line `uses: actions/checkout@v4` yields
the match `actions/checkout@v4` at line 1, column 7, whose text splits in
two at its single `@`. -/
theorem scan_match_split_safe_witness :
    (⟨"actions/checkout@v4".toList, 1, 7⟩ : Match) ∈
      ScanContentWithPosition demoFind demoLine ∧
    ("actions/checkout@v4".toList.count atChar = 1 ∧
      ∃ p q : List Char, goSplitN2 atChar "actions/checkout@v4".toList = [p, q] ∧
        p ≠ []) :=
  ⟨by decide,
    scan_match_split_safe demoFind demoLine demoFind_contract
      ⟨"actions/checkout@v4".toList, 1, 7⟩ (by decide)⟩
